import Mathlib

/-!
A shallow embedding of the KaHyPar multilevel-coarsening core: the
`HeavyEdgeRater` (vertex-pair rating with a sparse score accumulator and
an already-matched marker set) and the `MLCoarsener` driver
(`coarsenImpl`, `simulateContractions`), together with proofs of the
specification claims about them.

Machine integers are modelled as `Nat`/`Int`.  The floating-point rating
type (`RatingType`, a C++ `double`) is modelled as `ℚ` with exact
arithmetic.  The hypergraph storage, the `contract` mutation primitive
and the sentinel constants of the id/rating types live outside the shown
sources; where they are needed they are modelled from the spec and
marked as such in their doc comments.  The pluggable policy classes
(node-weight penalty, rating acceptance) are template parameters in the
source; they are modelled as an explicit `Policies` record of pure
functions, and the theorems hold for every instantiation.
-/

namespace KahyparML

/-- Modelled from the spec: the sentinel target of an invalid rating,
`std::numeric_limits<HypernodeID>::max()` ("the maximum representable
vertex id"); `HypernodeID` is a 32-bit unsigned integer, whose
definition is outside the shown sources. -/
def kInvalidTarget : Nat := 2 ^ 32 - 1

/-- Modelled from the spec: the sentinel value of an invalid rating,
`std::numeric_limits<RatingType>::min()` ("the minimum representable
rating value"; for an IEEE double this is the smallest positive
normalized value, `2 ^ (-1022)`).  The development only relies on it
being a fixed constant. -/
def ratingMin : ℚ := 1 / 2 ^ 1022

/-- The hypergraph collaborator (spec section 6): vertices
`0 .. initialNumNodes - 1` carry a weight, a partition id and an
enabled flag; hyperedges (identified by the ids listed in `edges`)
carry a weight and a pin list. -/
structure Hypergraph where
  initialNumNodes : Nat
  nodeWeight : Nat → Int
  partID : Nat → Int
  nodeEnabled : Nat → Bool
  edges : List Nat
  edgeWeight : Nat → Int
  pins : Nat → List Nat

/-- `edgeSize(e)`: the number of pins of hyperedge `e`. -/
def Hypergraph.edgeSize (hg : Hypergraph) (e : Nat) : Nat := (hg.pins e).length

/-- `incidentEdges(u)`: the hyperedges containing `u` as a pin. -/
def Hypergraph.incidentEdges (hg : Hypergraph) (u : Nat) : List Nat :=
  hg.edges.filter (fun e => decide (u ∈ hg.pins e))

/-- `nodes()`: the enabled vertices, in ascending id order. -/
def Hypergraph.nodes (hg : Hypergraph) : List Nat :=
  (List.range hg.initialNumNodes).filter (fun v => hg.nodeEnabled v)

/-- `currentNumNodes()`: the number of live (enabled) vertices. -/
def Hypergraph.currentNumNodes (hg : Hypergraph) : Nat := hg.nodes.length

/-- Modelled from the spec: the hypergraph `contract(u, v)` mutation
primitive ("merging two vertices into one, summing weights and unifying
incidence"); the primitive itself is outside the shown sources.  The
representative `u` absorbs `v`'s weight, `v` is disabled, and every
occurrence of `v` in a pin list is replaced by `u` (without
duplicating `u`). -/
def Hypergraph.contract (hg : Hypergraph) (u v : Nat) : Hypergraph :=
  { hg with
    nodeWeight := fun w => if w = u then hg.nodeWeight u + hg.nodeWeight v else hg.nodeWeight w
    nodeEnabled := fun w => if w = v then false else hg.nodeEnabled w
    pins := fun e => ((hg.pins e).map (fun w => if w = v then u else w)).dedup }

/-- The part of the configuration consumed by the coarsening core. -/
structure Context where
  max_allowed_node_weight : Int

/-- `HeavyEdgeRater::thresholdNodeWeight()`. -/
def thresholdNodeWeight (ctx : Context) : Int := ctx.max_allowed_node_weight

/-- `HeavyEdgeRater::belowThresholdNodeWeight(weight_u, weight_v)`. -/
def belowThresholdNodeWeight (ctx : Context) (weight_u weight_v : Int) : Bool :=
  decide (weight_v + weight_u ≤ ctx.max_allowed_node_weight)

/-- The pluggable policy template parameters of `HeavyEdgeRater`, as a
record of pure functions: `NodeWeightPenalty::penalty(wa, wb)` and
`AcceptancePolicy::acceptRating(tmp_rating, max_rating, target,
tmp_target, already_matched)`. -/
structure Policies where
  penalty : Int → Int → ℚ
  accept : ℚ → ℚ → Nat → Nat → (Nat → Bool) → Bool

/-- `HeavyEdgeRater::HeavyEdgeRating`: the result of scoring a vertex. -/
structure HeavyEdgeRating where
  target : Nat
  value : ℚ
  valid : Bool
deriving DecidableEq

/-- The sparse score accumulator `_tmp_ratings`, as its dense part: an
association list in insertion order with pairwise distinct keys. -/
def accValue (v : Nat) : List (Nat × ℚ) → ℚ
  | [] => 0
  | kv :: t => if kv.1 = v then kv.2 else accValue v t

/-- `_tmp_ratings[v] += q`: accumulate into the entry of key `v`,
appending a fresh entry at the end of the dense part when absent. -/
def addRating (t : List (Nat × ℚ)) (v : Nat) (q : ℚ) : List (Nat × ℚ) :=
  match t with
  | [] => [(v, q)]
  | kv :: rest => if kv.1 = v then (kv.1, kv.2 + q) :: rest else kv :: addRating rest v q

/-- The keys of the accumulator, in insertion order. -/
def keysOf (t : List (Nat × ℚ)) : List Nat := t.map Prod.fst

/-- The pin filter of `HeavyEdgeRater::rate`'s accumulation loop:
`v != u && belowThresholdNodeWeight(weight_u, nodeWeight(v)) &&
part_u == partID(v)`. -/
def pinAdmissible (ctx : Context) (hg : Hypergraph) (u : Nat) (weight_u part_u : Int)
    (v : Nat) : Bool :=
  decide (v ≠ u) && belowThresholdNodeWeight ctx weight_u (hg.nodeWeight v) &&
    decide (part_u = hg.partID v)

/-- The heavy-edge score of one hyperedge:
`static_cast<RatingType>(edgeWeight(he)) / (edgeSize(he) - 1)`. -/
def edgeScore (hg : Hypergraph) (e : Nat) : ℚ :=
  (hg.edgeWeight e : ℚ) / ((hg.edgeSize e : ℚ) - 1)

/-- The inner accumulation loop of `rate`: fold one hyperedge's pin list
into the accumulator. -/
def ratePins (ctx : Context) (hg : Hypergraph) (u : Nat) (weight_u part_u : Int)
    (score : ℚ) : List (Nat × ℚ) → List Nat → List (Nat × ℚ)
  | t, [] => t
  | t, v :: vs =>
    ratePins ctx hg u weight_u part_u score
      (if pinAdmissible ctx hg u weight_u part_u v = true then addRating t v score else t) vs

/-- The outer accumulation loop of `rate`: fold every hyperedge of a
list (the incident edges of `u`) into the accumulator. -/
def rateEdges (ctx : Context) (hg : Hypergraph) (u : Nat) (weight_u part_u : Int) :
    List (Nat × ℚ) → List Nat → List (Nat × ℚ)
  | t, [] => t
  | t, e :: es =>
    rateEdges ctx hg u weight_u part_u
      (ratePins ctx hg u weight_u part_u (edgeScore hg e) t (hg.pins e)) es

/-- The selection loop of `rate`: traverse the accumulator in reverse
insertion order (`end() - 1` down to `begin()`), keeping the best
`(max_rating, target)` pair accepted by the acceptance policy; a
candidate in a different community than `u` is rejected outright.
The first argument of the pair is `max_rating`, the second `target`,
and this function receives the already-reversed entry list. -/
def scanRatings (P : Policies) (hg : Hypergraph) (comm : Nat → Int) (matched : Nat → Bool)
    (u : Nat) (weight_u : Int) : ℚ × Nat → List (Nat × ℚ) → ℚ × Nat
  | best, [] => best
  | best, kv :: rest =>
    scanRatings P hg comm matched u weight_u
      (if comm u = comm kv.1 ∧
          P.accept (kv.2 / P.penalty weight_u (hg.nodeWeight kv.1)) best.1 best.2 kv.1 matched
            = true
       then (kv.2 / P.penalty weight_u (hg.nodeWeight kv.1), kv.1) else best) rest

/-- The accumulator contents after the accumulation phase of
`rate(u)`, starting from residue `tmp0` (an actual call always finds
the accumulator empty). -/
def tmpRatingsFor (ctx : Context) (hg : Hypergraph) (tmp0 : List (Nat × ℚ)) (u : Nat) :
    List (Nat × ℚ) :=
  rateEdges ctx hg u (hg.nodeWeight u) (hg.partID u) tmp0 (hg.incidentEdges u)

/-- The final `(max_rating, target)` pair of `rate(u)`'s selection
loop: the accumulated entries are traversed in reverse insertion order
starting from the sentinel pair. -/
def scanBest (P : Policies) (ctx : Context) (comm : Nat → Int) (hg : Hypergraph)
    (matched : Nat → Bool) (tmp0 : List (Nat × ℚ)) (u : Nat) : ℚ × Nat :=
  scanRatings P hg comm matched u (hg.nodeWeight u) (ratingMin, kInvalidTarget)
    (tmpRatingsFor ctx hg tmp0 u).reverse

/-- The body of `HeavyEdgeRater::rate(u)`, starting from accumulator
contents `tmp0` (the residue left in `_tmp_ratings` by earlier calls;
an actual call always finds it empty): accumulate the heavy-edge scores
of the admissible pins of `u`'s incident edges, select the best
accepted candidate in reverse insertion order, and return a valid
rating exactly when the final `max_rating` differs from the sentinel. -/
def rateResult (P : Policies) (ctx : Context) (comm : Nat → Int) (hg : Hypergraph)
    (matched : Nat → Bool) (tmp0 : List (Nat × ℚ)) (u : Nat) : HeavyEdgeRating :=
  if (scanBest P ctx comm hg matched tmp0 u).1 ≠ ratingMin then
    ⟨(scanBest P ctx comm hg matched tmp0 u).2, (scanBest P ctx comm hg matched tmp0 u).1, true⟩
  else ⟨kInvalidTarget, ratingMin, false⟩

/-- The mutable state owned by `HeavyEdgeRater`: the shared hypergraph
reference, the `_tmp_ratings` accumulator and the `_already_matched`
marker set. -/
structure RaterState where
  hg : Hypergraph
  tmpRatings : List (Nat × ℚ)
  alreadyMatched : Nat → Bool

/-- `HeavyEdgeRater::rate(u)` with its state threaded explicitly: the
rating is computed from the current accumulator contents, and
`_tmp_ratings.clear()` leaves the accumulator empty on return. -/
def rateSt (P : Policies) (ctx : Context) (comm : Nat → Int) (s : RaterState) (u : Nat) :
    HeavyEdgeRating × RaterState :=
  (rateResult P ctx comm s.hg s.alreadyMatched s.tmpRatings u, { s with tmpRatings := [] })

/-- `rate(u)` as invoked by the driver: the accumulator is empty at
every actual call site. -/
def rate (P : Policies) (ctx : Context) (comm : Nat → Int) (hg : Hypergraph)
    (matched : Nat → Bool) (u : Nat) : HeavyEdgeRating :=
  rateResult P ctx comm hg matched [] u

/-- `rate(u)` with the source's assertion semantics: the accumulation
loop executes `ASSERT(edgeSize(he) > 1)` for every incident hyperedge,
so the call aborts (returns `none`) exactly when some incident edge is
degenerate.  The remaining assertions of `rate` (a valid rating's
target is not the sentinel and shares `u`'s community and partition)
are established by the soundness lemmas below and can never fire. -/
def rateChecked (P : Policies) (ctx : Context) (comm : Nat → Int) (s : RaterState)
    (u : Nat) : Option (HeavyEdgeRating × RaterState) :=
  if (s.hg.incidentEdges u).all (fun e => decide (1 < s.hg.edgeSize e)) then
    some (rateSt P ctx comm s u)
  else none

/-- `HeavyEdgeRater::markAsMatched(hn)`. -/
def markAsMatched (m : Nat → Bool) (hn : Nat) : Nat → Bool :=
  fun w => if w = hn then true else m w

/-- `HeavyEdgeRater::resetMatches()`. -/
def resetMatches : Nat → Bool := fun _ => false

/-- A hypergraph restricted to its non-degenerate hyperedges (used to
state that degenerate edges contribute nothing to any rating). -/
def withoutSmallEdges (hg : Hypergraph) : Hypergraph :=
  { hg with edges := hg.edges.filter (fun e => decide (1 < hg.edgeSize e)) }

/-- The state acted on by `MLCoarsener`: the shared hypergraph, the
rater's matched markers, and the contraction history `_history`.
`trace` and `rated` are ghost observation logs used only by the
specification: `trace` records, for every performed contraction, the
hypergraph as it was immediately before that contraction together with
the (representative, contracted) pair, and `rated` records the
hypergraph at, and the argument of, every `rate` call the driver
issues. -/
structure DriverState where
  hg : Hypergraph
  matched : Nat → Bool
  history : List (Nat × Nat)
  trace : List (Hypergraph × Nat × Nat)
  rated : List (Hypergraph × Nat)

/-- `Base::performContraction(u, v)`, modelled from the spec: performs
the contraction against the hypergraph and appends the record to the
ordered history (the base class is outside the shown sources).  The
ghost `trace` additionally snapshots the pre-contraction hypergraph. -/
def performContraction (s : DriverState) (u v : Nat) : DriverState :=
  { s with
    hg := s.hg.contract u v
    history := s.history ++ [(u, v)]
    trace := s.trace ++ [(s.hg, u, v)] }

/-- One body of `coarsenImpl`'s scan over an enabled vertex `hn`: rate
it and, when the rating's target is not the sentinel, mark both
endpoints as matched and perform the contraction.  The ghost `rated`
log records the `rate` invocation. -/
def contractionStep (P : Policies) (ctx : Context) (comm : Nat → Int) (s : DriverState)
    (hn : Nat) : DriverState :=
  if (rate P ctx comm s.hg s.matched hn).target ≠ kInvalidTarget then
    performContraction
      { s with
        matched := markAsMatched (markAsMatched s.matched hn)
          ((rate P ctx comm s.hg s.matched hn).target)
        rated := s.rated ++ [(s.hg, hn)] }
      hn ((rate P ctx comm s.hg s.matched hn).target)
  else { s with rated := s.rated ++ [(s.hg, hn)] }

/-- The inner loop of one pass of `coarsenImpl`: process the shuffled
vertex list in order, skipping vertices disabled earlier in the same
pass, and stop scanning as soon as the live vertex count reaches
`limit`. -/
def scanNodes (P : Policies) (ctx : Context) (comm : Nat → Int) (limit : Nat) :
    DriverState → List Nat → DriverState
  | s, [] => s
  | s, hn :: rest =>
    if s.hg.nodeEnabled hn = true then
      let s' := contractionStep P ctx comm s hn
      if s'.hg.currentNumNodes ≤ limit then s'
      else scanNodes P ctx comm limit s' rest
    else scanNodes P ctx comm limit s rest

/-- One pass of `coarsenImpl`: reset the matched markers, snapshot the
enabled vertices, shuffle them (the shuffle is driven by the
process-wide random source; it is modelled as an oracle `rho` given the
pass number and the snapshot) and scan the resulting order.  The
end-of-pass callback is external and does not affect the modelled
state. -/
def doPass (P : Policies) (ctx : Context) (comm : Nat → Int)
    (rho : Nat → List Nat → List Nat) (limit : Nat) (s : DriverState) (passNr : Nat) :
    DriverState :=
  let s₀ : DriverState := { s with matched := resetMatches }
  scanNodes P ctx comm limit s₀ (rho passNr s₀.hg.nodes)

/-- The pass loop of `MLCoarsener::coarsenImpl`, with an explicit fuel
parameter standing for the unbounded `while`: stop when the live vertex
count is at most `limit`, run a pass, and stop when the pass left the
live vertex count unchanged.  `coarsenImpl` supplies enough fuel for
the loop to reach one of its two exit conditions, which is proved
below. -/
def coarsenLoop (P : Policies) (ctx : Context) (comm : Nat → Int)
    (rho : Nat → List Nat → List Nat) (limit : Nat) :
    Nat → DriverState → Nat → DriverState
  | 0, s, _ => s
  | fuel + 1, s, passNr =>
    if s.hg.currentNumNodes ≤ limit then s
    else
      let s' := doPass P ctx comm rho limit s passNr
      if s'.hg.currentNumNodes = s.hg.currentNumNodes then s'
      else coarsenLoop P ctx comm rho limit fuel s' (passNr + 1)

/-- `MLCoarsener::coarsenImpl(limit)`. -/
def coarsenImpl (P : Policies) (ctx : Context) (comm : Nat → Int)
    (rho : Nat → List Nat → List Nat) (limit : Nat) (s : DriverState) : DriverState :=
  coarsenLoop P ctx comm rho limit (s.hg.currentNumNodes + 1) s 0

/-- The stepwise precondition of `simulateContractions`: every memento
refers to two vertices that are enabled at its point of the replay. -/
def mementosEnabled (s : DriverState) : List (Nat × Nat) → Bool
  | [] => true
  | (u, v) :: rest =>
    s.hg.nodeEnabled u && s.hg.nodeEnabled v &&
      mementosEnabled (performContraction s u v) rest

/-- `MLCoarsener::simulateContractions(mementos)`: replay the records in
order; each record asserts that both of its vertices are enabled
(`none` models the assertion failure) and invokes `performContraction`
followed by the external contraction callback.  The returned list
records the arguments of the contraction-callback invocations. -/
def simulateContractions (s : DriverState) :
    List (Nat × Nat) → Option (DriverState × List (Nat × Nat))
  | [] => some (s, [])
  | (u, v) :: rest =>
    if s.hg.nodeEnabled u = true ∧ s.hg.nodeEnabled v = true then
      (simulateContractions (performContraction s u v) rest).map
        (fun pr => (pr.1, (u, v) :: pr.2))
    else none

/-- Well-formedness of the hypergraph state maintained by the driver:
enabled vertices have in-range ids, and every pin of every hyperedge is
an enabled vertex (a contracted-away vertex is removed from all pin
lists by `contract`). -/
def Wf (hg : Hypergraph) : Prop :=
  (∀ v, hg.nodeEnabled v = true → v < hg.initialNumNodes) ∧
  (∀ e ∈ hg.edges, ∀ v ∈ hg.pins e, hg.nodeEnabled v = true)

/-- The invariant package of one performed contraction, evaluated on the
pre-contraction hypergraph snapshot `(hgPre, u, v)`: representative and
contracted vertex are distinct, both enabled, in the same partition and
community, and their summed weight is within the configured
threshold. -/
def GoodContraction (ctx : Context) (comm : Nat → Int) :
    Hypergraph × Nat × Nat → Prop :=
  fun ev =>
    ev.2.1 ≠ ev.2.2 ∧
    ev.1.nodeEnabled ev.2.1 = true ∧
    ev.1.nodeEnabled ev.2.2 = true ∧
    ev.1.partID ev.2.1 = ev.1.partID ev.2.2 ∧
    comm ev.2.1 = comm ev.2.2 ∧
    ev.1.nodeWeight ev.2.1 + ev.1.nodeWeight ev.2.2 ≤ thresholdNodeWeight ctx

/-- The per-candidate raw heavy-edge score of the spec: the sum of
`edgeWeight(e) / (edgeSize(e) - 1)` over the hyperedges `e` incident to
`u` that also contain `v`. -/
def rawScore (hg : Hypergraph) (u v : Nat) : ℚ :=
  (((hg.incidentEdges u).filter (fun e => decide (v ∈ hg.pins e))).map
    (fun e => edgeScore hg e)).sum

/-! Concrete instances used by the witnesses. -/

/-- A concrete policy instantiation: no weight penalty, and acceptance
by strict improvement of the rating. -/
def P0 : Policies :=
  { penalty := fun _ _ => 1
    accept := fun tmp_rating max_rating _ _ _ => decide (max_rating < tmp_rating) }

/-- A configuration with node-weight threshold 10. -/
def ctxA : Context := ⟨10⟩

/-- A configuration with node-weight threshold 1. -/
def ctxB : Context := ⟨1⟩

/-- A single community for all vertices. -/
def commA : Nat → Int := fun _ => 0

/-- The spec's four-vertex scenario: four enabled unit-weight vertices,
one hyperedge `{0, 1, 2, 3}` of weight 6, a single partition and
community. -/
def hgA : Hypergraph :=
  { initialNumNodes := 4
    nodeWeight := fun _ => 1
    partID := fun _ => 0
    nodeEnabled := fun v => decide (v < 4)
    edges := [0]
    edgeWeight := fun _ => 6
    pins := fun e => if e = 0 then [0, 1, 2, 3] else [] }

/-- The spec's stall scenario: two enabled unit-weight vertices joined
by a unit-weight hyperedge. -/
def hgB : Hypergraph :=
  { initialNumNodes := 2
    nodeWeight := fun _ => 1
    partID := fun _ => 0
    nodeEnabled := fun v => decide (v < 2)
    edges := [0]
    edgeWeight := fun _ => 1
    pins := fun e => if e = 0 then [0, 1] else [] }

/-- A hypergraph with a degenerate (single-pin) hyperedge incident to
vertex 0. -/
def hgC : Hypergraph :=
  { initialNumNodes := 1
    nodeWeight := fun _ => 1
    partID := fun _ => 0
    nodeEnabled := fun v => decide (v < 1)
    edges := [0]
    edgeWeight := fun _ => 1
    pins := fun e => if e = 0 then [0] else [] }

/-- Fresh driver state over `hgA`. -/
def stateA : DriverState := ⟨hgA, resetMatches, [], [], []⟩

/-- Fresh driver state over `hgB`. -/
def stateB : DriverState := ⟨hgB, resetMatches, [], [], []⟩

/-- Fresh rater state over `hgA`. -/
def raterA : RaterState := ⟨hgA, [], resetMatches⟩

/-- Fresh rater state over `hgC`. -/
def raterC : RaterState := ⟨hgC, [], resetMatches⟩

/-- The identity processing order (a degenerate but legitimate shuffle
outcome). -/
def rhoId : Nat → List Nat → List Nat := fun _ l => l

/-! Accumulator lemmas. -/

lemma accValue_addRating (t : List (Nat × ℚ)) (v w : Nat) (q : ℚ) :
    accValue w (addRating t v q) = accValue w t + if w = v then q else 0 := by
  induction t with
  | nil =>
    rcases eq_or_ne w v with h | h
    · subst h; simp [addRating, accValue]
    · simp [addRating, accValue, h, Ne.symm h]
  | cons kv rest ih =>
    by_cases h1 : kv.1 = v
    · by_cases h2 : kv.1 = w
      · have hwv : w = v := by omega
        simp [addRating, accValue, h1, h2, hwv]
      · have hwv : w ≠ v := by omega
        have hvw : v ≠ w := by omega
        simp [addRating, accValue, h1, h2, hwv, hvw]
    · by_cases h2 : kv.1 = w
      · have hwv : w ≠ v := by omega
        simp [addRating, accValue, h1, h2, hwv]
      · simp [addRating, accValue, h1, h2, ih]

lemma mem_keys_addRating (t : List (Nat × ℚ)) (v w : Nat) (q : ℚ) :
    w ∈ keysOf (addRating t v q) ↔ w ∈ keysOf t ∨ w = v := by
  induction t with
  | nil => simp [addRating, keysOf, eq_comm]
  | cons kv rest ih =>
    by_cases h1 : kv.1 = v
    · simp only [addRating, if_pos h1, keysOf, List.map_cons, List.mem_cons]
      constructor
      · exact Or.inl
      · rintro (h | h)
        · exact h
        · exact Or.inl (by omega)
    · simp only [addRating, if_neg h1, keysOf, List.map_cons, List.mem_cons] at ih ⊢
      rw [ih]
      tauto

lemma nodup_keys_addRating (t : List (Nat × ℚ)) (v : Nat) (q : ℚ)
    (h : (keysOf t).Nodup) : (keysOf (addRating t v q)).Nodup := by
  induction t with
  | nil => simp [addRating, keysOf]
  | cons kv rest ih =>
    simp only [keysOf, List.map_cons, List.nodup_cons] at h
    by_cases h1 : kv.1 = v
    · simpa [addRating, keysOf, h1, List.nodup_cons] using h
    · have := ih h.2
      simp only [addRating, if_neg h1, keysOf, List.map_cons, List.nodup_cons]
      refine ⟨fun hmem => ?_, this⟩
      rcases (mem_keys_addRating rest v kv.1 q).1 hmem with hh | hh
      · exact h.1 hh
      · exact h1 hh

lemma accValue_of_mem (t : List (Nat × ℚ)) (v : Nat) (q : ℚ)
    (hnd : (keysOf t).Nodup) (hmem : (v, q) ∈ t) : accValue v t = q := by
  induction t with
  | nil => simp at hmem
  | cons kv rest ih =>
    simp only [keysOf, List.map_cons, List.nodup_cons] at hnd
    rcases List.mem_cons.1 hmem with h | h
    · subst h; simp [accValue]
    · have hne : kv.1 ≠ v := by
        intro hh
        exact hnd.1 (hh ▸ (List.mem_map_of_mem Prod.fst h))
      simpa [accValue, hne] using ih hnd.2 h

/-! Lemmas about one hyperedge's accumulation loop. -/

lemma accValue_ratePins (ctx : Context) (hg : Hypergraph) (u : Nat) (wu pu : Int)
    (sc : ℚ) (w : Nat) (vs : List Nat) :
    ∀ t : List (Nat × ℚ), vs.Nodup →
      accValue w (ratePins ctx hg u wu pu sc t vs) =
        accValue w t + if pinAdmissible ctx hg u wu pu w = true ∧ w ∈ vs then sc else 0 := by
  induction vs with
  | nil => intro t _; simp [ratePins]
  | cons v vs ih =>
    intro t hnd
    rw [List.nodup_cons] at hnd
    simp only [ratePins]
    rw [ih _ hnd.2]
    by_cases hw : w = v
    · subst hw
      by_cases hadm : pinAdmissible ctx hg u wu pu w = true
      · simp [hadm, accValue_addRating, hnd.1]
      · simp [hadm]
    · by_cases hadm : pinAdmissible ctx hg u wu pu v = true
      · simp [hadm, accValue_addRating, hw, List.mem_cons]
      · simp [hadm, hw, List.mem_cons]

lemma mem_keys_ratePins (ctx : Context) (hg : Hypergraph) (u : Nat) (wu pu : Int)
    (sc : ℚ) (w : Nat) (vs : List Nat) :
    ∀ t : List (Nat × ℚ), w ∈ keysOf (ratePins ctx hg u wu pu sc t vs) →
      w ∈ keysOf t ∨ (pinAdmissible ctx hg u wu pu w = true ∧ w ∈ vs) := by
  induction vs with
  | nil => intro t h; exact Or.inl (by simpa [ratePins] using h)
  | cons v vs ih =>
    intro t h
    simp only [ratePins] at h
    rcases ih _ h with h' | h'
    · by_cases hadm : pinAdmissible ctx hg u wu pu v = true
      · rw [if_pos hadm] at h'
        rcases (mem_keys_addRating t v w sc).1 h' with h'' | h''
        · exact Or.inl h''
        · subst h''; exact Or.inr ⟨hadm, by simp⟩
      · rw [if_neg hadm] at h'; exact Or.inl h'
    · exact Or.inr ⟨h'.1, by simp [h'.2]⟩

lemma nodup_keys_ratePins (ctx : Context) (hg : Hypergraph) (u : Nat) (wu pu : Int)
    (sc : ℚ) (vs : List Nat) :
    ∀ t : List (Nat × ℚ), (keysOf t).Nodup →
      (keysOf (ratePins ctx hg u wu pu sc t vs)).Nodup := by
  induction vs with
  | nil => intro t h; simpa [ratePins] using h
  | cons v vs ih =>
    intro t h
    simp only [ratePins]
    refine ih _ ?_
    by_cases hadm : pinAdmissible ctx hg u wu pu v = true
    · rw [if_pos hadm]; exact nodup_keys_addRating _ _ _ h
    · rw [if_neg hadm]; exact h

/-! Lemmas about the accumulation over a list of hyperedges. -/

lemma accValue_rateEdges (ctx : Context) (hg : Hypergraph) (u : Nat) (wu pu : Int)
    (w : Nat) (es : List Nat) :
    ∀ t : List (Nat × ℚ), (∀ e ∈ es, (hg.pins e).Nodup) →
      accValue w (rateEdges ctx hg u wu pu t es) =
        accValue w t +
          if pinAdmissible ctx hg u wu pu w = true then
            ((es.filter (fun e => decide (w ∈ hg.pins e))).map (fun e => edgeScore hg e)).sum
          else 0 := by
  induction es with
  | nil => intro t _; by_cases hadm : pinAdmissible ctx hg u wu pu w = true <;>
      simp [rateEdges, hadm]
  | cons e es ih =>
    intro t hnd
    simp only [rateEdges]
    rw [ih _ fun e' he' => hnd e' (List.mem_cons_of_mem _ he')]
    rw [accValue_ratePins ctx hg u wu pu (edgeScore hg e) w (hg.pins e) t
      (hnd e (List.mem_cons_self _ _))]
    by_cases hadm : pinAdmissible ctx hg u wu pu w = true
    · by_cases hin : w ∈ hg.pins e
      · simp [hadm, hin, List.filter_cons]
        ring
      · simp [hadm, hin, List.filter_cons]
    · simp [hadm]

lemma mem_keys_rateEdges (ctx : Context) (hg : Hypergraph) (u : Nat) (wu pu : Int)
    (w : Nat) (es : List Nat) :
    ∀ t : List (Nat × ℚ), w ∈ keysOf (rateEdges ctx hg u wu pu t es) →
      w ∈ keysOf t ∨
        (pinAdmissible ctx hg u wu pu w = true ∧ ∃ e ∈ es, w ∈ hg.pins e) := by
  induction es with
  | nil => intro t h; exact Or.inl (by simpa [rateEdges] using h)
  | cons e es ih =>
    intro t h
    simp only [rateEdges] at h
    rcases ih _ h with h' | h'
    · rcases mem_keys_ratePins ctx hg u wu pu (edgeScore hg e) w (hg.pins e) t h' with
        h'' | h''
      · exact Or.inl h''
      · exact Or.inr ⟨h''.1, e, List.mem_cons_self _ _, h''.2⟩
    · exact Or.inr ⟨h'.1, h'.2.choose, List.mem_cons_of_mem _ h'.2.choose_spec.1,
        h'.2.choose_spec.2⟩

lemma nodup_keys_rateEdges (ctx : Context) (hg : Hypergraph) (u : Nat) (wu pu : Int)
    (es : List Nat) :
    ∀ t : List (Nat × ℚ), (keysOf t).Nodup →
      (keysOf (rateEdges ctx hg u wu pu t es)).Nodup := by
  induction es with
  | nil => intro t h; simpa [rateEdges] using h
  | cons e es ih =>
    intro t h
    simp only [rateEdges]
    exact ih _ (nodup_keys_ratePins ctx hg u wu pu (edgeScore hg e) (hg.pins e) t h)

/-! Lemmas about the accumulator produced by `rate(u)`. -/

lemma pinAdmissible_iff (ctx : Context) (hg : Hypergraph) (u : Nat) (wu pu : Int)
    (v : Nat) :
    pinAdmissible ctx hg u wu pu v = true ↔
      v ≠ u ∧ hg.nodeWeight v + wu ≤ ctx.max_allowed_node_weight ∧ pu = hg.partID v := by
  simp [pinAdmissible, belowThresholdNodeWeight, Bool.and_eq_true, and_assoc]

lemma nodup_keys_tmpRatingsFor (ctx : Context) (hg : Hypergraph) (u : Nat) :
    (keysOf (tmpRatingsFor ctx hg [] u)).Nodup :=
  nodup_keys_rateEdges ctx hg u _ _ _ [] (by simp [keysOf])

lemma mem_keys_tmpRatingsFor (ctx : Context) (hg : Hypergraph) (u w : Nat)
    (h : w ∈ keysOf (tmpRatingsFor ctx hg [] u)) :
    pinAdmissible ctx hg u (hg.nodeWeight u) (hg.partID u) w = true ∧
      ∃ e ∈ hg.incidentEdges u, w ∈ hg.pins e := by
  rcases mem_keys_rateEdges ctx hg u _ _ w (hg.incidentEdges u) [] h with h' | h'
  · simp [keysOf] at h'
  · exact h'

lemma accValue_tmpRatingsFor (ctx : Context) (hg : Hypergraph) (u w : Nat)
    (hnd : ∀ e ∈ hg.edges, (hg.pins e).Nodup) :
    accValue w (tmpRatingsFor ctx hg [] u) =
      if pinAdmissible ctx hg u (hg.nodeWeight u) (hg.partID u) w = true then
        rawScore hg u w
      else 0 := by
  have hnd' : ∀ e ∈ hg.incidentEdges u, (hg.pins e).Nodup := by
    intro e he
    exact hnd e (List.mem_of_mem_filter he)
  have := accValue_rateEdges ctx hg u (hg.nodeWeight u) (hg.partID u) w
    (hg.incidentEdges u) [] hnd'
  simpa [accValue, rawScore] using this

/-! Lemmas about the selection loop. -/

lemma scanRatings_cases (P : Policies) (hg : Hypergraph) (comm : Nat → Int)
    (matched : Nat → Bool) (u : Nat) (wu : Int) (tmp : List (Nat × ℚ)) :
    ∀ (l : List (Nat × ℚ)) (best : ℚ × Nat),
      (∀ kv ∈ l, kv ∈ tmp) →
      (best = (ratingMin, kInvalidTarget) ∨
        ∃ kv ∈ tmp, best = (kv.2 / P.penalty wu (hg.nodeWeight kv.1), kv.1) ∧
          comm u = comm kv.1) →
      (scanRatings P hg comm matched u wu best l = (ratingMin, kInvalidTarget) ∨
        ∃ kv ∈ tmp, scanRatings P hg comm matched u wu best l =
          (kv.2 / P.penalty wu (hg.nodeWeight kv.1), kv.1) ∧ comm u = comm kv.1) := by
  intro l
  induction l with
  | nil => intro best _ hb; simpa [scanRatings] using hb
  | cons kv rest ih =>
    intro best hmem hb
    simp only [scanRatings]
    refine ih _ (fun kv' h => hmem kv' (List.mem_cons_of_mem _ h)) ?_
    by_cases hc : comm u = comm kv.1 ∧
        P.accept (kv.2 / P.penalty wu (hg.nodeWeight kv.1)) best.1 best.2 kv.1 matched = true
    · rw [if_pos hc]
      exact Or.inr ⟨kv, hmem kv (List.mem_cons_self _ _), rfl, hc.1⟩
    · rw [if_neg hc]; exact hb

lemma scanBest_cases (P : Policies) (ctx : Context) (comm : Nat → Int) (hg : Hypergraph)
    (matched : Nat → Bool) (u : Nat) :
    scanBest P ctx comm hg matched [] u = (ratingMin, kInvalidTarget) ∨
      ∃ kv ∈ tmpRatingsFor ctx hg [] u,
        scanBest P ctx comm hg matched [] u =
          (kv.2 / P.penalty (hg.nodeWeight u) (hg.nodeWeight kv.1), kv.1) ∧
        comm u = comm kv.1 :=
  scanRatings_cases P hg comm matched u (hg.nodeWeight u) (tmpRatingsFor ctx hg [] u)
    (tmpRatingsFor ctx hg [] u).reverse (ratingMin, kInvalidTarget)
    (fun _ h => List.mem_reverse.1 h) (Or.inl rfl)

/-! Soundness of the returned rating. -/

lemma rate_valid_mem (P : Policies) (ctx : Context) (comm : Nat → Int) (hg : Hypergraph)
    (matched : Nat → Bool) (u : Nat)
    (hv : (rate P ctx comm hg matched u).valid = true) :
    ∃ kv ∈ tmpRatingsFor ctx hg [] u,
      (rate P ctx comm hg matched u).target = kv.1 ∧
      (rate P ctx comm hg matched u).value =
        kv.2 / P.penalty (hg.nodeWeight u) (hg.nodeWeight kv.1) ∧
      comm u = comm kv.1 := by
  by_cases h : (scanBest P ctx comm hg matched [] u).1 = ratingMin
  · exfalso
    rw [rate, rateResult, if_neg (by simpa using h)] at hv
    simp at hv
  · rcases scanBest_cases P ctx comm hg matched u with h' | ⟨kv, hmem, heq, hcomm⟩
    · exact absurd (by rw [h']) h
    · refine ⟨kv, hmem, ?_, ?_, hcomm⟩
      · rw [rate, rateResult, if_pos (by simpa using h), heq]
      · rw [rate, rateResult, if_pos (by simpa using h), heq]

lemma rate_valid_of_target_ne (P : Policies) (ctx : Context) (comm : Nat → Int)
    (hg : Hypergraph) (matched : Nat → Bool) (u : Nat)
    (ht : (rate P ctx comm hg matched u).target ≠ kInvalidTarget) :
    (rate P ctx comm hg matched u).valid = true := by
  by_cases h : (scanBest P ctx comm hg matched [] u).1 = ratingMin
  · exfalso
    rw [rate, rateResult, if_neg (by simpa using h)] at ht
    simp at ht
  · rw [rate, rateResult, if_pos (by simpa using h)]

lemma rate_target_facts (P : Policies) (ctx : Context) (comm : Nat → Int) (hg : Hypergraph)
    (matched : Nat → Bool) (u : Nat)
    (hv : (rate P ctx comm hg matched u).valid = true) :
    (rate P ctx comm hg matched u).target ≠ u ∧
    hg.partID ((rate P ctx comm hg matched u).target) = hg.partID u ∧
    comm ((rate P ctx comm hg matched u).target) = comm u ∧
    hg.nodeWeight u + hg.nodeWeight ((rate P ctx comm hg matched u).target) ≤
      ctx.max_allowed_node_weight ∧
    ∃ e ∈ hg.incidentEdges u, (rate P ctx comm hg matched u).target ∈ hg.pins e := by
  obtain ⟨kv, hmem, htg, hval, hcomm⟩ := rate_valid_mem P ctx comm hg matched u hv
  have hkey : kv.1 ∈ keysOf (tmpRatingsFor ctx hg [] u) :=
    List.mem_map_of_mem Prod.fst hmem
  obtain ⟨hadm, he⟩ := mem_keys_tmpRatingsFor ctx hg u kv.1 hkey
  rw [pinAdmissible_iff] at hadm
  rw [htg]
  exact ⟨hadm.1, hadm.2.2.symm, hcomm.symm, by linarith [hadm.2.1], he⟩

lemma rate_target_enabled (P : Policies) (ctx : Context) (comm : Nat → Int)
    (hg : Hypergraph) (matched : Nat → Bool) (u : Nat) (hwf : Wf hg)
    (hv : (rate P ctx comm hg matched u).valid = true) :
    hg.nodeEnabled ((rate P ctx comm hg matched u).target) = true := by
  obtain ⟨-, -, -, -, e, he, hpin⟩ := rate_target_facts P ctx comm hg matched u hv
  exact hwf.2 e (List.mem_of_mem_filter he) _ hpin

/-! Counting lemmas for the live vertex count. -/

lemma filter_length_mono {p q : Nat → Bool} (l : List Nat)
    (h : ∀ x ∈ l, q x = true → p x = true) :
    (l.filter q).length ≤ (l.filter p).length := by
  induction l with
  | nil => simp
  | cons a l ih =>
    have ih' := ih fun x hx => h x (List.mem_cons_of_mem _ hx)
    by_cases hq : q a = true
    · have hp := h a (List.mem_cons_self _ _) hq
      simp [List.filter_cons, hq, hp]
      omega
    · rw [Bool.not_eq_true] at hq
      by_cases hp : p a = true
      · simp [List.filter_cons, hq, hp]
        omega
      · rw [Bool.not_eq_true] at hp
        simp [List.filter_cons, hq, hp]
        exact ih'

lemma filter_length_update_of_mem {p : Nat → Bool} (l : List Nat) (v : Nat)
    (hnd : l.Nodup) (hmem : v ∈ l) (hv : p v = true) :
    (l.filter fun w => if w = v then false else p w).length + 1 = (l.filter p).length := by
  induction l with
  | nil => simp at hmem
  | cons a l ih =>
    rw [List.nodup_cons] at hnd
    rcases List.mem_cons.1 hmem with h | h
    · subst h
      have hcongr : ∀ x ∈ l, (fun w => if w = v then false else p w) x = p x := by
        intro x hx
        have hxv : x ≠ v := fun hh => hnd.1 (hh ▸ hx)
        simp [hxv]
      simp only [List.filter_cons]
      rw [List.filter_congr hcongr]
      simp [hv]
    · have hav : a ≠ v := fun hh => hnd.1 (hh ▸ h)
      have hih := ih hnd.2 h
      by_cases hp : p a = true
      · simp [List.filter_cons, hav, hp] at hih ⊢
        omega
      · rw [Bool.not_eq_true] at hp
        simp [List.filter_cons, hav, hp] at hih ⊢
        omega

lemma currentNumNodes_contract_le (hg : Hypergraph) (u v : Nat) :
    (hg.contract u v).currentNumNodes ≤ hg.currentNumNodes := by
  apply filter_length_mono
  intro x _ hx
  simp only [Hypergraph.contract] at hx
  by_cases h : x = v
  · rw [if_pos h] at hx; cases hx
  · rw [if_neg h] at hx; exact hx

lemma currentNumNodes_contract (hg : Hypergraph) (u v : Nat) (hwf : Wf hg)
    (hv : hg.nodeEnabled v = true) :
    (hg.contract u v).currentNumNodes + 1 = hg.currentNumNodes := by
  have hvN : v < hg.initialNumNodes := hwf.1 v hv
  exact filter_length_update_of_mem (List.range hg.initialNumNodes) v
    (List.nodup_range _) (List.mem_range.2 hvN) hv

lemma Wf_contract (hg : Hypergraph) (u v : Nat) (hwf : Wf hg)
    (hu : hg.nodeEnabled u = true) (huv : u ≠ v) : Wf (hg.contract u v) := by
  constructor
  · intro w hw
    simp only [Hypergraph.contract] at hw
    by_cases h : w = v
    · rw [if_pos h] at hw; cases hw
    · rw [if_neg h] at hw
      exact hwf.1 w hw
  · intro e he w hw
    simp only [Hypergraph.contract] at he hw ⊢
    rw [List.mem_dedup] at hw
    rcases List.mem_map.1 hw with ⟨x, hx, hxe⟩
    by_cases hxv : x = v
    · rw [if_pos hxv] at hxe
      subst hxe
      rw [if_neg huv]
      exact hu
    · rw [if_neg hxv] at hxe
      subst hxe
      rw [if_neg hxv]
      exact hwf.2 e he x hx

/-! Invariants of the driver loop. -/

lemma contractionStep_props (P : Policies) (ctx : Context) (comm : Nat → Int)
    (s : DriverState) (hn : Nat) (hwf : Wf s.hg) (hen : s.hg.nodeEnabled hn = true) :
    Wf (contractionStep P ctx comm s hn).hg ∧
    (contractionStep P ctx comm s hn).hg.currentNumNodes +
        (contractionStep P ctx comm s hn).history.length =
      s.hg.currentNumNodes + s.history.length ∧
    s.history.length ≤ (contractionStep P ctx comm s hn).history.length ∧
    ((∀ ev ∈ s.trace, GoodContraction ctx comm ev) →
      ∀ ev ∈ (contractionStep P ctx comm s hn).trace, GoodContraction ctx comm ev) ∧
    ((∀ pr ∈ s.rated, pr.1.nodeEnabled pr.2 = true) →
      ∀ pr ∈ (contractionStep P ctx comm s hn).rated, pr.1.nodeEnabled pr.2 = true) := by
  by_cases ht : (rate P ctx comm s.hg s.matched hn).target ≠ kInvalidTarget
  · have hv := rate_valid_of_target_ne P ctx comm s.hg s.matched hn ht
    obtain ⟨hne, hpart, hcomm, hwt, -⟩ := rate_target_facts P ctx comm s.hg s.matched hn hv
    have hten := rate_target_enabled P ctx comm s.hg s.matched hn hwf hv
    have hgood : GoodContraction ctx comm
        (s.hg, hn, (rate P ctx comm s.hg s.matched hn).target) :=
      ⟨Ne.symm hne, hen, hten, hpart.symm, hcomm.symm, hwt⟩
    have hcnt := currentNumNodes_contract s.hg hn
      ((rate P ctx comm s.hg s.matched hn).target) hwf hten
    simp only [contractionStep, if_pos ht, performContraction]
    refine ⟨?_, ?_, ?_, ?_, ?_⟩
    · exact Wf_contract s.hg hn _ hwf hen (Ne.symm hne)
    · simp only [List.length_append, List.length_cons, List.length_nil]
      omega
    · simp
    · intro htr ev hev
      rcases List.mem_append.1 hev with h | h
      · exact htr ev h
      · rw [List.mem_singleton.1 h]
        exact hgood
    · intro hr pr hpr
      rcases List.mem_append.1 hpr with h | h
      · exact hr pr h
      · rw [List.mem_singleton.1 h]
        exact hen
  · simp only [contractionStep, if_neg ht]
    refine ⟨hwf, by simp, by simp, fun h => h, ?_⟩
    intro hr pr hpr
    rcases List.mem_append.1 hpr with h | h
    · exact hr pr h
    · rw [List.mem_singleton.1 h]
      exact hen

lemma scanNodes_props (P : Policies) (ctx : Context) (comm : Nat → Int) (limit : Nat)
    (l : List Nat) :
    ∀ s : DriverState, Wf s.hg →
      Wf (scanNodes P ctx comm limit s l).hg ∧
      (scanNodes P ctx comm limit s l).hg.currentNumNodes +
          (scanNodes P ctx comm limit s l).history.length =
        s.hg.currentNumNodes + s.history.length ∧
      s.history.length ≤ (scanNodes P ctx comm limit s l).history.length ∧
      ((∀ ev ∈ s.trace, GoodContraction ctx comm ev) →
        ∀ ev ∈ (scanNodes P ctx comm limit s l).trace, GoodContraction ctx comm ev) ∧
      ((∀ pr ∈ s.rated, pr.1.nodeEnabled pr.2 = true) →
        ∀ pr ∈ (scanNodes P ctx comm limit s l).rated, pr.1.nodeEnabled pr.2 = true) := by
  induction l with
  | nil =>
    intro s hwf
    exact ⟨hwf, rfl, le_refl _, fun h => h, fun h => h⟩
  | cons hn rest ih =>
    intro s hwf
    simp only [scanNodes]
    by_cases hen : s.hg.nodeEnabled hn = true
    · rw [if_pos hen]
      obtain ⟨hwf', hcount, hlen, htr, hrt⟩ := contractionStep_props P ctx comm s hn hwf hen
      by_cases hbr : (contractionStep P ctx comm s hn).hg.currentNumNodes ≤ limit
      · rw [if_pos hbr]
        exact ⟨hwf', hcount, hlen, htr, hrt⟩
      · rw [if_neg hbr]
        obtain ⟨hwf2, hcount2, hlen2, htr2, hrt2⟩ :=
          ih (contractionStep P ctx comm s hn) hwf'
        exact ⟨hwf2, by omega, by omega, fun h => htr2 (htr h), fun h => hrt2 (hrt h)⟩
    · rw [if_neg hen]
      exact ih s hwf

lemma doPass_props (P : Policies) (ctx : Context) (comm : Nat → Int)
    (rho : Nat → List Nat → List Nat) (limit : Nat) (s : DriverState) (n : Nat)
    (hwf : Wf s.hg) :
    Wf (doPass P ctx comm rho limit s n).hg ∧
    (doPass P ctx comm rho limit s n).hg.currentNumNodes +
        (doPass P ctx comm rho limit s n).history.length =
      s.hg.currentNumNodes + s.history.length ∧
    s.history.length ≤ (doPass P ctx comm rho limit s n).history.length ∧
    ((∀ ev ∈ s.trace, GoodContraction ctx comm ev) →
      ∀ ev ∈ (doPass P ctx comm rho limit s n).trace, GoodContraction ctx comm ev) ∧
    ((∀ pr ∈ s.rated, pr.1.nodeEnabled pr.2 = true) →
      ∀ pr ∈ (doPass P ctx comm rho limit s n).rated, pr.1.nodeEnabled pr.2 = true) := by
  unfold doPass
  exact scanNodes_props P ctx comm limit _ { s with matched := resetMatches } hwf

lemma doPass_count_le (P : Policies) (ctx : Context) (comm : Nat → Int)
    (rho : Nat → List Nat → List Nat) (limit : Nat) (s : DriverState) (n : Nat)
    (hwf : Wf s.hg) :
    (doPass P ctx comm rho limit s n).hg.currentNumNodes ≤ s.hg.currentNumNodes := by
  obtain ⟨-, h1, h2, -, -⟩ := doPass_props P ctx comm rho limit s n hwf
  omega

lemma coarsenLoop_props (P : Policies) (ctx : Context) (comm : Nat → Int)
    (rho : Nat → List Nat → List Nat) (limit : Nat) :
    ∀ (fuel : Nat) (s : DriverState) (n : Nat), Wf s.hg →
      s.hg.currentNumNodes < fuel + limit →
      Wf (coarsenLoop P ctx comm rho limit fuel s n).hg ∧
      ((coarsenLoop P ctx comm rho limit fuel s n).hg.currentNumNodes ≤ limit ∨
        ∃ s₀ m, coarsenLoop P ctx comm rho limit fuel s n = doPass P ctx comm rho limit s₀ m ∧
          (doPass P ctx comm rho limit s₀ m).hg.currentNumNodes = s₀.hg.currentNumNodes) ∧
      ((∀ ev ∈ s.trace, GoodContraction ctx comm ev) →
        ∀ ev ∈ (coarsenLoop P ctx comm rho limit fuel s n).trace,
          GoodContraction ctx comm ev) ∧
      ((∀ pr ∈ s.rated, pr.1.nodeEnabled pr.2 = true) →
        ∀ pr ∈ (coarsenLoop P ctx comm rho limit fuel s n).rated,
          pr.1.nodeEnabled pr.2 = true) := by
  intro fuel
  induction fuel with
  | zero =>
    intro s n hwf hfuel
    exact ⟨hwf, Or.inl (by simpa [coarsenLoop] using Nat.le_of_lt_succ (by omega)),
      fun h => h, fun h => h⟩
  | succ fuel ih =>
    intro s n hwf hfuel
    simp only [coarsenLoop]
    by_cases hle : s.hg.currentNumNodes ≤ limit
    · rw [if_pos hle]
      exact ⟨hwf, Or.inl hle, fun h => h, fun h => h⟩
    · rw [if_neg hle]
      obtain ⟨hwf', hcount, hlen, htr, hrt⟩ := doPass_props P ctx comm rho limit s n hwf
      by_cases hst : (doPass P ctx comm rho limit s n).hg.currentNumNodes =
          s.hg.currentNumNodes
      · rw [if_pos hst]
        exact ⟨hwf', Or.inr ⟨s, n, rfl, hst⟩, htr, hrt⟩
      · rw [if_neg hst]
        obtain ⟨hwf2, hpost2, htr2, hrt2⟩ :=
          ih (doPass P ctx comm rho limit s n) (n + 1) hwf' (by omega)
        exact ⟨hwf2, hpost2, fun h => htr2 (htr h), fun h => hrt2 (hrt h)⟩

lemma coarsenLoop_fuel_add (P : Policies) (ctx : Context) (comm : Nat → Int)
    (rho : Nat → List Nat → List Nat) (limit : Nat) :
    ∀ (fuel : Nat) (s : DriverState) (n : Nat) (extra : Nat), Wf s.hg →
      s.hg.currentNumNodes < fuel + limit →
      coarsenLoop P ctx comm rho limit (fuel + extra) s n =
        coarsenLoop P ctx comm rho limit fuel s n := by
  intro fuel
  induction fuel with
  | zero =>
    intro s n extra hwf hfuel
    match extra with
    | 0 => rfl
    | k + 1 =>
      rw [Nat.zero_add]
      simp only [coarsenLoop]
      rw [if_pos (by omega : s.hg.currentNumNodes ≤ limit)]
  | succ fuel ih =>
    intro s n extra hwf hfuel
    have harr : fuel + 1 + extra = (fuel + extra) + 1 := by omega
    rw [harr]
    simp only [coarsenLoop]
    by_cases hle : s.hg.currentNumNodes ≤ limit
    · rw [if_pos hle, if_pos hle]
    · rw [if_neg hle, if_neg hle]
      obtain ⟨hwf', hcount, hlen, -, -⟩ := doPass_props P ctx comm rho limit s n hwf
      by_cases hst : (doPass P ctx comm rho limit s n).hg.currentNumNodes =
          s.hg.currentNumNodes
      · rw [if_pos hst, if_pos hst]
      · rw [if_neg hst, if_neg hst]
        exact ih (doPass P ctx comm rho limit s n) (n + 1) extra hwf' (by omega)

/-! Claim theorems. -/

/-- C1: for every enabled vertex `u`, if `rate(u)` returns a valid
rating then its target `t` satisfies `t ≠ u`, `partID(t) = partID(u)`,
`community(t) = community(u)`, and
`nodeWeight(u) + nodeWeight(t) ≤ thresholdNodeWeight()`. -/
theorem rate_valid_target_sound (P : Policies) (ctx : Context) (comm : Nat → Int)
    (hg : Hypergraph) (matched : Nat → Bool) (u : Nat)
    (henabled : hg.nodeEnabled u = true)
    (hvalid : (rate P ctx comm hg matched u).valid = true) :
    (rate P ctx comm hg matched u).target ≠ u ∧
    hg.partID ((rate P ctx comm hg matched u).target) = hg.partID u ∧
    comm ((rate P ctx comm hg matched u).target) = comm u ∧
    hg.nodeWeight u + hg.nodeWeight ((rate P ctx comm hg matched u).target) ≤
      thresholdNodeWeight ctx := by
  obtain ⟨h1, h2, h3, h4, -⟩ := rate_target_facts P ctx comm hg matched u hvalid
  exact ⟨h1, h2, h3, h4⟩

/-- Witness for C1: in the four-vertex scenario, `rate(0)` is valid and
the theorem applies to it. -/
theorem rate_valid_target_sound_witness :
    hgA.nodeEnabled 0 = true ∧
    (rate P0 ctxA commA hgA resetMatches 0).valid = true ∧
    ((rate P0 ctxA commA hgA resetMatches 0).target ≠ 0 ∧
     hgA.partID ((rate P0 ctxA commA hgA resetMatches 0).target) = hgA.partID 0 ∧
     commA ((rate P0 ctxA commA hgA resetMatches 0).target) = commA 0 ∧
     hgA.nodeWeight 0 + hgA.nodeWeight ((rate P0 ctxA commA hgA resetMatches 0).target) ≤
       thresholdNodeWeight ctxA) :=
  have hv : (rate P0 ctxA commA hgA resetMatches 0).valid = true := by
    norm_num [rate, rateResult, scanBest, tmpRatingsFor, rateEdges, ratePins, addRating,
      pinAdmissible, scanRatings, edgeScore, hgA, ctxA, commA, P0,
      belowThresholdNodeWeight, kInvalidTarget, ratingMin, Hypergraph.incidentEdges,
      Hypergraph.edgeSize, resetMatches]
  ⟨by decide, hv, rate_valid_target_sound P0 ctxA commA hgA resetMatches 0 (by decide) hv⟩

/-- C2: every contraction performed by `coarsenImpl(limit)` takes place,
on the hypergraph as it is immediately before that contraction, between
a representative and a contracted vertex that are distinct, both
enabled, share partition id and community label, and whose summed
weight is within the configured node-weight threshold (the ghost
`trace` log records exactly these pre-contraction snapshots); moreover,
as the ghost `rated` log records, the driver only ever rates vertices
that are enabled at rating time, so a contracted-away (disabled) vertex
is neither rated as a source nor (being absent from every pin list)
chosen as a target. -/
theorem coarsen_contractions_good (P : Policies) (ctx : Context) (comm : Nat → Int)
    (rho : Nat → List Nat → List Nat) (limit : Nat) (s : DriverState)
    (hwf : Wf s.hg)
    (htrace : ∀ ev ∈ s.trace, GoodContraction ctx comm ev)
    (hrated : ∀ pr ∈ s.rated, pr.1.nodeEnabled pr.2 = true) :
    (∀ ev ∈ (coarsenImpl P ctx comm rho limit s).trace, GoodContraction ctx comm ev) ∧
    (∀ pr ∈ (coarsenImpl P ctx comm rho limit s).rated, pr.1.nodeEnabled pr.2 = true) := by
  obtain ⟨-, -, htr, hrt⟩ := coarsenLoop_props P ctx comm rho limit
    (s.hg.currentNumNodes + 1) s 0 hwf (by omega)
  exact ⟨htr htrace, hrt hrated⟩

/-- Witness for C2: the four-vertex scenario coarsened to limit 2. -/
theorem coarsen_contractions_good_witness :
    Wf stateA.hg ∧
    (∀ ev ∈ (coarsenImpl P0 ctxA commA rhoId 2 stateA).trace,
      GoodContraction ctxA commA ev) :=
  have hwf : Wf stateA.hg := ⟨fun v hv => of_decide_eq_true hv, by decide⟩
  ⟨hwf, (coarsen_contractions_good P0 ctxA commA rhoId 2 stateA hwf
      (by simp [stateA]) (by simp [stateA])).1⟩

/-- C4: `coarsenImpl(limit)` terminates — the fuel supplied by the
model is already enough, so adding any amount of extra fuel does not
change the result — and when it returns, either the live vertex count
is at most `limit`, or the result is the state produced by the last
executed pass and that pass changed the live vertex count by zero (a
stall, which is a normal stop); moreover every pass that performs at
least one contraction (its history grew) strictly decreases the live
vertex count, so the number of passes is bounded. -/
theorem coarsen_terminates (P : Policies) (ctx : Context) (comm : Nat → Int)
    (rho : Nat → List Nat → List Nat) (limit : Nat) (s : DriverState) (hwf : Wf s.hg) :
    (∀ extra : Nat,
      coarsenLoop P ctx comm rho limit (s.hg.currentNumNodes + 1 + extra) s 0 =
        coarsenImpl P ctx comm rho limit s) ∧
    ((coarsenImpl P ctx comm rho limit s).hg.currentNumNodes ≤ limit ∨
      ∃ s₀ m, coarsenImpl P ctx comm rho limit s = doPass P ctx comm rho limit s₀ m ∧
        (doPass P ctx comm rho limit s₀ m).hg.currentNumNodes = s₀.hg.currentNumNodes) ∧
    (∀ (s₀ : DriverState) (m : Nat), Wf s₀.hg →
      s₀.history.length < (doPass P ctx comm rho limit s₀ m).history.length →
      (doPass P ctx comm rho limit s₀ m).hg.currentNumNodes < s₀.hg.currentNumNodes) := by
  refine ⟨?_, ?_, ?_⟩
  · intro extra
    exact coarsenLoop_fuel_add P ctx comm rho limit (s.hg.currentNumNodes + 1) s 0 extra
      hwf (by omega)
  · exact (coarsenLoop_props P ctx comm rho limit (s.hg.currentNumNodes + 1) s 0 hwf
      (by omega)).2.1
  · intro s₀ m hwf0 hgrow
    obtain ⟨-, hsum, hlen, -, -⟩ := doPass_props P ctx comm rho limit s₀ m hwf0
    omega

/-- Witness for C4: the four-vertex scenario coarsened to limit 2. -/
theorem coarsen_terminates_witness :
    Wf stateA.hg ∧
    ((coarsenImpl P0 ctxA commA rhoId 2 stateA).hg.currentNumNodes ≤ 2 ∨
      ∃ s₀ m, coarsenImpl P0 ctxA commA rhoId 2 stateA = doPass P0 ctxA commA rhoId 2 s₀ m ∧
        (doPass P0 ctxA commA rhoId 2 s₀ m).hg.currentNumNodes = s₀.hg.currentNumNodes) :=
  have hwf : Wf stateA.hg := ⟨fun v hv => of_decide_eq_true hv, by decide⟩
  ⟨hwf, (coarsen_terminates P0 ctxA commA rhoId 2 stateA hwf).2.1⟩

/-- C3: in `rate(u)`, every accumulated entry `(v, s)` of the score
accumulator has an admissible candidate `v` (distinct from `u`, within
the weight threshold, in `u`'s partition) and its raw score `s` equals
the sum of `edgeWeight(e) / (edgeSize(e) - 1)` over the hyperedges `e`
incident to `u` that also contain `v`; and a valid rating's value
equals that accumulated sum divided by
`penalty(weight(u), weight(target))`. -/
theorem rate_score_formula (P : Policies) (ctx : Context) (comm : Nat → Int)
    (hg : Hypergraph) (matched : Nat → Bool) (u : Nat)
    (hnd : ∀ e ∈ hg.edges, (hg.pins e).Nodup) :
    (∀ kv ∈ tmpRatingsFor ctx hg [] u,
      kv.2 = rawScore hg u kv.1 ∧
      pinAdmissible ctx hg u (hg.nodeWeight u) (hg.partID u) kv.1 = true) ∧
    ((rate P ctx comm hg matched u).valid = true →
      (rate P ctx comm hg matched u).value =
        rawScore hg u ((rate P ctx comm hg matched u).target) /
          P.penalty (hg.nodeWeight u)
            (hg.nodeWeight ((rate P ctx comm hg matched u).target))) := by
  have hentry : ∀ kv ∈ tmpRatingsFor ctx hg [] u,
      kv.2 = rawScore hg u kv.1 ∧
      pinAdmissible ctx hg u (hg.nodeWeight u) (hg.partID u) kv.1 = true := by
    rintro ⟨v, q⟩ hmem
    have hkey : v ∈ keysOf (tmpRatingsFor ctx hg [] u) :=
      List.mem_map_of_mem Prod.fst hmem
    obtain ⟨hadm, -⟩ := mem_keys_tmpRatingsFor ctx hg u v hkey
    have hval : accValue v (tmpRatingsFor ctx hg [] u) = q :=
      accValue_of_mem _ v q (nodup_keys_tmpRatingsFor ctx hg u) hmem
    rw [accValue_tmpRatingsFor ctx hg u v hnd, if_pos hadm] at hval
    exact ⟨hval.symm, hadm⟩
  refine ⟨hentry, fun hv => ?_⟩
  obtain ⟨kv, hmem, htg, hvalue, -⟩ := rate_valid_mem P ctx comm hg matched u hv
  obtain ⟨hraw, -⟩ := hentry kv hmem
  rw [hvalue, hraw, htg]

/-- Witness for C3: the accumulator entries of `rate(0)` in the
four-vertex scenario. -/
theorem rate_score_formula_witness :
    (∀ e ∈ hgA.edges, (hgA.pins e).Nodup) ∧
    (∀ kv ∈ tmpRatingsFor ctxA hgA [] 0,
      kv.2 = rawScore hgA 0 kv.1 ∧
      pinAdmissible ctxA hgA 0 (hgA.nodeWeight 0) (hgA.partID 0) kv.1 = true) :=
  ⟨by decide, (rate_score_formula P0 ctxA commA hgA resetMatches 0 (by decide)).1⟩

/-- C7: calling `rate(u)` twice with no intervening mutation of the
hypergraph or the matched markers returns the same rating both times
(the first call leaves the state — whose accumulator a real call always
finds empty — exactly as it found it). -/
theorem rate_twice_eq (P : Policies) (ctx : Context) (comm : Nat → Int)
    (s : RaterState) (u : Nat) (h : s.tmpRatings = []) :
    (rateSt P ctx comm (rateSt P ctx comm s u).2 u).1 = (rateSt P ctx comm s u).1 := by
  have hfix : (rateSt P ctx comm s u).2 = s := by
    cases s
    cases h
    rfl
  rw [hfix]

/-- Witness for C7: the four-vertex scenario with a fresh rater. -/
theorem rate_twice_eq_witness :
    raterA.tmpRatings = [] ∧
    (rateSt P0 ctxA commA (rateSt P0 ctxA commA raterA 0).2 0).1 =
      (rateSt P0 ctxA commA raterA 0).1 :=
  ⟨rfl, rate_twice_eq P0 ctxA commA raterA 0 rfl⟩

/-- C9: `rate` mutates neither the hypergraph nor the already-matched
marker set, fully clears the internal score accumulator on return, and
every subsequent call from the returned state behaves exactly as a call
on a clean rater state, so `rate` may be called repeatedly with no
residual effect. -/
theorem rate_frame (P : Policies) (ctx : Context) (comm : Nat → Int)
    (s : RaterState) (u : Nat) :
    (rateSt P ctx comm s u).2.hg = s.hg ∧
    (rateSt P ctx comm s u).2.alreadyMatched = s.alreadyMatched ∧
    (rateSt P ctx comm s u).2.tmpRatings = [] ∧
    (∀ w, (rateSt P ctx comm (rateSt P ctx comm s u).2 w).1 =
      rate P ctx comm s.hg s.alreadyMatched w) :=
  ⟨rfl, rfl, rfl, fun _ => rfl⟩

/-- C10: every rating returned by `rate` satisfies the three-way
equivalence: it is valid exactly when its target differs from the
sentinel `kInvalidTarget`, exactly when its value differs from the
sentinel `ratingMin`; hence the driver's test
`rating.target != kInvalidTarget` is equivalent to testing
`rating.valid`, and an invalid rating carries exactly the two
sentinels. -/
theorem rating_sentinel_iff (P : Policies) (ctx : Context) (comm : Nat → Int)
    (hg : Hypergraph) (matched : Nat → Bool) (u : Nat)
    (hwf : Wf hg) (hbound : hg.initialNumNodes ≤ kInvalidTarget) :
    ((rate P ctx comm hg matched u).valid = true ↔
      (rate P ctx comm hg matched u).target ≠ kInvalidTarget) ∧
    ((rate P ctx comm hg matched u).valid = true ↔
      (rate P ctx comm hg matched u).value ≠ ratingMin) ∧
    ((rate P ctx comm hg matched u).valid = false →
      (rate P ctx comm hg matched u).target = kInvalidTarget ∧
      (rate P ctx comm hg matched u).value = ratingMin) := by
  by_cases hb : (scanBest P ctx comm hg matched [] u).1 = ratingMin
  · have hrt : rate P ctx comm hg matched u = ⟨kInvalidTarget, ratingMin, false⟩ := by
      simp only [rate, rateResult]
      rw [if_neg (by simpa using hb)]
    rw [hrt]
    refine ⟨?_, ?_, fun _ => ⟨rfl, rfl⟩⟩
    · constructor
      · intro h; cases h
      · intro h; exact absurd rfl h
    · constructor
      · intro h; cases h
      · intro h; exact absurd rfl h
  · have hv : (rate P ctx comm hg matched u).valid = true := by
      simp only [rate, rateResult]
      rw [if_pos (by simpa using hb)]
    have hten := rate_target_enabled P ctx comm hg matched u hwf hv
    have htlt : (rate P ctx comm hg matched u).target < hg.initialNumNodes :=
      hwf.1 _ hten
    have htne : (rate P ctx comm hg matched u).target ≠ kInvalidTarget := by omega
    have hvne : (rate P ctx comm hg matched u).value ≠ ratingMin := by
      simp only [rate, rateResult]
      rw [if_pos (by simpa using hb)]
      exact hb
    refine ⟨⟨fun _ => htne, fun _ => hv⟩, ⟨fun _ => hvne, fun _ => hv⟩, fun hfalse => ?_⟩
    rw [hv] at hfalse
    cases hfalse

/-- Witness for C10: the four-vertex scenario. -/
theorem rating_sentinel_iff_witness :
    Wf hgA ∧ hgA.initialNumNodes ≤ kInvalidTarget ∧
    ((rate P0 ctxA commA hgA resetMatches 0).valid = true ↔
      (rate P0 ctxA commA hgA resetMatches 0).target ≠ kInvalidTarget) :=
  have hwf : Wf hgA := ⟨fun v hv => of_decide_eq_true hv, by decide⟩
  ⟨hwf, by decide, (rating_sentinel_iff P0 ctxA commA hgA resetMatches 0 hwf (by decide)).1⟩

/-! The stall scenario (C8). -/

lemma rate_of_tmp_nil (P : Policies) (ctx : Context) (comm : Nat → Int) (hg : Hypergraph)
    (matched : Nat → Bool) (u : Nat) (h : tmpRatingsFor ctx hg [] u = []) :
    rate P ctx comm hg matched u = ⟨kInvalidTarget, ratingMin, false⟩ := by
  have hb : scanBest P ctx comm hg matched [] u = (ratingMin, kInvalidTarget) := by
    rw [scanBest, h]
    rfl
  simp only [rate, rateResult, hb]
  simp

lemma tmp_nil_of_inadmissible (ctx : Context) (hg : Hypergraph) (u : Nat)
    (h : ∀ w, pinAdmissible ctx hg u (hg.nodeWeight u) (hg.partID u) w = true →
      (∃ e ∈ hg.incidentEdges u, w ∈ hg.pins e) → False) :
    tmpRatingsFor ctx hg [] u = [] := by
  cases htmp : tmpRatingsFor ctx hg [] u with
  | nil => rfl
  | cons kv rest =>
    exfalso
    have hkey : kv.1 ∈ keysOf (tmpRatingsFor ctx hg [] u) := by
      rw [htmp]
      exact List.mem_map_of_mem Prod.fst (List.mem_cons_self _ _)
    obtain ⟨hadm, he⟩ := mem_keys_tmpRatingsFor ctx hg u kv.1 hkey
    exact h kv.1 hadm he

/-- C8: with the node-weight threshold set to 1 and a hypergraph of two
enabled vertices of weight 1 each, `rate` returns an invalid rating for
every enabled vertex (the combined weight 2 exceeds the threshold), and
`coarsenImpl` returns the result of its single executed pass with the
live vertex count unchanged (a stall). -/
theorem two_vertices_threshold_stall (P : Policies) (ctx : Context) (comm : Nat → Int)
    (rho : Nat → List Nat → List Nat) (limit : Nat) (s : DriverState)
    (hN : s.hg.initialNumNodes = 2)
    (hthr : ctx.max_allowed_node_weight = 1)
    (hw : ∀ v, v < 2 → s.hg.nodeWeight v = 1)
    (henb : ∀ v, s.hg.nodeEnabled v = true → v < 2)
    (hen0 : s.hg.nodeEnabled 0 = true) (hen1 : s.hg.nodeEnabled 1 = true)
    (hpins : ∀ e ∈ s.hg.edges, ∀ v ∈ s.hg.pins e, s.hg.nodeEnabled v = true)
    (hlim : limit < 2) :
    (∀ (matched : Nat → Bool) (u : Nat), s.hg.nodeEnabled u = true →
      (rate P ctx comm s.hg matched u).valid = false) ∧
    coarsenImpl P ctx comm rho limit s = doPass P ctx comm rho limit s 0 ∧
    (coarsenImpl P ctx comm rho limit s).hg.currentNumNodes = s.hg.currentNumNodes := by
  have hrate : ∀ (matched : Nat → Bool) (u : Nat), s.hg.nodeEnabled u = true →
      rate P ctx comm s.hg matched u = ⟨kInvalidTarget, ratingMin, false⟩ := by
    intro matched u hu
    apply rate_of_tmp_nil
    apply tmp_nil_of_inadmissible
    intro w hadm hex
    rw [pinAdmissible_iff] at hadm
    obtain ⟨e, he, hpin⟩ := hex
    have hwen : s.hg.nodeEnabled w = true := hpins e (List.mem_of_mem_filter he) w hpin
    have hw2 : w < 2 := henb w hwen
    have hu2 : u < 2 := henb u hu
    have hsum := hadm.2.1
    rw [hw w hw2, hw u hu2, hthr] at hsum
    omega
  have hcnt : s.hg.currentNumNodes = 2 := by
    have hr2 : List.range s.hg.initialNumNodes = [0, 1] := by
      rw [hN]
      decide
    rw [Hypergraph.currentNumNodes, Hypergraph.nodes, hr2]
    simp [List.filter, hen0, hen1]
  have hscan : ∀ (l : List Nat) (s' : DriverState), s'.hg = s.hg →
      (scanNodes P ctx comm limit s' l).hg = s'.hg := by
    intro l
    induction l with
    | nil => intro s' h; rfl
    | cons hn rest ih =>
      intro s' h
      simp only [scanNodes]
      by_cases hen : s'.hg.nodeEnabled hn = true
      · rw [if_pos hen]
        have hrr : rate P ctx comm s'.hg s'.matched hn = ⟨kInvalidTarget, ratingMin, false⟩ := by
          rw [h]
          exact hrate s'.matched hn (by rw [← h]; exact hen)
        have hstep : contractionStep P ctx comm s' hn =
            { s' with rated := s'.rated ++ [(s'.hg, hn)] } := by
          simp only [contractionStep, hrr]
          simp
        rw [hstep]
        by_cases hbr : ({ s' with rated := s'.rated ++ [(s'.hg, hn)] } :
            DriverState).hg.currentNumNodes ≤ limit
        · rw [if_pos hbr]
        · rw [if_neg hbr]
          exact ih _ h
      · rw [if_neg hen]
        exact ih s' h
  have hpass : (doPass P ctx comm rho limit s 0).hg = s.hg :=
    hscan _ { s with matched := resetMatches } rfl
  have himpl : coarsenImpl P ctx comm rho limit s = doPass P ctx comm rho limit s 0 := by
    rw [coarsenImpl]
    simp only [coarsenLoop]
    rw [if_neg (by omega), if_pos (by rw [hpass])]
  refine ⟨fun matched u hu => by rw [hrate matched u hu], himpl, ?_⟩
  rw [himpl, hpass]

/-- Witness for C8: the concrete two-vertex scenario with threshold 1
and limit 1. -/
theorem two_vertices_threshold_stall_witness :
    (∀ v, hgB.nodeEnabled v = true → v < 2) ∧
    (∀ (matched : Nat → Bool) (u : Nat), stateB.hg.nodeEnabled u = true →
      (rate P0 ctxB commA stateB.hg matched u).valid = false) ∧
    (coarsenImpl P0 ctxB commA rhoId 1 stateB).hg.currentNumNodes =
      stateB.hg.currentNumNodes :=
  have hres := two_vertices_threshold_stall P0 ctxB commA rhoId 1 stateB rfl rfl
    (fun _ _ => rfl) (fun v hv => of_decide_eq_true hv) (by decide) (by decide)
    (by decide) (by decide)
  ⟨fun v hv => of_decide_eq_true hv, hres.1, hres.2.2⟩

/-! Replay of contraction records (C5). -/

lemma simulateContractions_spec : ∀ (ms : List (Nat × Nat)) (s : DriverState),
    ((simulateContractions s ms).isSome = true ↔ mementosEnabled s ms = true) ∧
    (∀ s' calls, simulateContractions s ms = some (s', calls) →
      calls = ms ∧ s'.matched = s.matched ∧
      s'.hg = ms.foldl (fun h uv => h.contract uv.1 uv.2) s.hg ∧
      s'.history = s.history ++ ms) := by
  intro ms
  induction ms with
  | nil =>
    intro s
    constructor
    · simp [simulateContractions, mementosEnabled]
    · intro s' calls h
      simp only [simulateContractions, Option.some_inj] at h
      cases h
      exact ⟨rfl, rfl, rfl, by simp⟩
  | cons uv rest ih =>
    intro s
    obtain ⟨u, v⟩ := uv
    constructor
    · simp only [simulateContractions, mementosEnabled]
      by_cases hen : s.hg.nodeEnabled u = true ∧ s.hg.nodeEnabled v = true
      · rw [if_pos hen]
        have hiff := (ih (performContraction s u v)).1
        rcases hsim : simulateContractions (performContraction s u v) rest with _ | pr
        · rw [hsim] at hiff
          simp only [Option.map_none', Option.isSome_none, hen.1, hen.2,
            Bool.true_and] at hiff ⊢
          exact hiff
        · rw [hsim] at hiff
          simp only [Option.map_some', Option.isSome_some, hen.1, hen.2,
            Bool.true_and] at hiff ⊢
          exact hiff
      · rw [if_neg hen]
        constructor
        · intro h; cases h
        · intro h
          rw [Bool.and_eq_true, Bool.and_eq_true] at h
          exact absurd ⟨h.1.1, h.1.2⟩ hen
    · intro s' calls h
      simp only [simulateContractions] at h
      by_cases hen : s.hg.nodeEnabled u = true ∧ s.hg.nodeEnabled v = true
      · rw [if_pos hen, Option.map_eq_some'] at h
        obtain ⟨⟨s2, calls2⟩, hsim, heq⟩ := h
        cases heq
        obtain ⟨hc, hm, hh, hhist⟩ := (ih (performContraction s u v)).2 s2 calls2 hsim
        refine ⟨by rw [hc], hm, ?_, ?_⟩
        · rw [hh]
          rfl
        · rw [hhist]
          simp [performContraction]
      · rw [if_neg hen] at h
        cases h

/-- Counterexample for C5: the claim requires the replayed pairs to be
distinct and asserts an abort on violation, but `simulateContractions`
only asserts enabledness: replaying the non-distinct pair `(0, 0)` on
an enabled vertex does not abort. -/
theorem simulateContractions_nondistinct_no_abort :
    stateA.hg.nodeEnabled 0 = true ∧
    (simulateContractions stateA [(0, 0)]).isSome = true := by
  constructor
  · decide
  · decide

/-- C5 (amended): `simulateContractions(mementos)` requires every
`(u, v)` pair to reference two vertices enabled at its point of the
replay and aborts (assertion failure, `none`) exactly when this fails;
distinctness of the pair is not itself checked.  On success it performs
the contractions in sequence order, invokes exactly the contraction
callback for each record (the returned call list), and never touches
the matched markers nor invokes the rater. -/
theorem simulateContractions_sound (s : DriverState) (ms : List (Nat × Nat)) :
    ((simulateContractions s ms).isSome = true ↔ mementosEnabled s ms = true) ∧
    (∀ s' calls, simulateContractions s ms = some (s', calls) →
      calls = ms ∧ s'.matched = s.matched ∧
      s'.hg = ms.foldl (fun h uv => h.contract uv.1 uv.2) s.hg ∧
      s'.history = s.history ++ ms) :=
  simulateContractions_spec ms s

/-- Witness for C5: a two-step replay on the four-vertex scenario. -/
theorem simulateContractions_sound_witness :
    mementosEnabled stateA [(0, 1), (2, 3)] = true ∧
    (simulateContractions stateA [(0, 1), (2, 3)]).isSome = true :=
  ⟨by decide, (simulateContractions_sound stateA [(0, 1), (2, 3)]).1.mpr (by decide)⟩

/-! Degenerate hyperedges (C6). -/

lemma ratePins_withoutSmall (ctx : Context) (hg : Hypergraph) (u : Nat) (wu pu : Int)
    (sc : ℚ) :
    ∀ (vs : List Nat) (t : List (Nat × ℚ)),
      ratePins ctx (withoutSmallEdges hg) u wu pu sc t vs = ratePins ctx hg u wu pu sc t vs := by
  intro vs
  induction vs with
  | nil => intro t; rfl
  | cons v vs ih =>
    intro t
    simp only [ratePins]
    rw [ih]
    have hadm : pinAdmissible ctx (withoutSmallEdges hg) u wu pu v =
        pinAdmissible ctx hg u wu pu v := rfl
    rw [hadm]

lemma rateEdges_withoutSmall (ctx : Context) (hg : Hypergraph) (u : Nat) (wu pu : Int) :
    ∀ (es : List Nat) (t : List (Nat × ℚ)),
      rateEdges ctx (withoutSmallEdges hg) u wu pu t es = rateEdges ctx hg u wu pu t es := by
  intro es
  induction es with
  | nil => intro t; rfl
  | cons e es ih =>
    intro t
    simp only [rateEdges]
    rw [ratePins_withoutSmall, ih]
    have hsc : edgeScore (withoutSmallEdges hg) e = edgeScore hg e := rfl
    have hpn : (withoutSmallEdges hg).pins = hg.pins := rfl
    rw [hsc, hpn]

lemma scanRatings_withoutSmall (P : Policies) (hg : Hypergraph) (comm : Nat → Int)
    (matched : Nat → Bool) (u : Nat) (wu : Int) :
    ∀ (l : List (Nat × ℚ)) (best : ℚ × Nat),
      scanRatings P (withoutSmallEdges hg) comm matched u wu best l =
        scanRatings P hg comm matched u wu best l := by
  intro l
  induction l with
  | nil => intro best; rfl
  | cons kv rest ih =>
    intro best
    simp only [scanRatings]
    rw [ih]
    have hwt : (withoutSmallEdges hg).nodeWeight = hg.nodeWeight := rfl
    rw [hwt]

lemma incidentEdges_withoutSmall (hg : Hypergraph) (u : Nat) :
    (withoutSmallEdges hg).incidentEdges u =
      (hg.incidentEdges u).filter fun e => decide (1 < hg.edgeSize e) := by
  simp only [Hypergraph.incidentEdges, withoutSmallEdges]
  rw [List.filter_filter, List.filter_filter]
  exact List.filter_congr fun e _ => Bool.and_comm _ _

lemma rateEdges_filter_degenerate (ctx : Context) (hg : Hypergraph) (u : Nat)
    (wu pu : Int) :
    ∀ (es : List Nat) (t : List (Nat × ℚ)), (∀ e ∈ es, u ∈ hg.pins e) →
      rateEdges ctx hg u wu pu t (es.filter fun e => decide (1 < hg.edgeSize e)) =
        rateEdges ctx hg u wu pu t es := by
  intro es
  induction es with
  | nil => intro t _; rfl
  | cons e es ih =>
    intro t hmem
    by_cases hsz : 1 < hg.edgeSize e
    · rw [List.filter_cons_of_pos (by simpa using hsz)]
      simp only [rateEdges]
      exact ih _ fun e' he' => hmem e' (List.mem_cons_of_mem _ he')
    · rw [List.filter_cons_of_neg (by simpa using hsz)]
      have hu : u ∈ hg.pins e := hmem e (List.mem_cons_self _ _)
      have hlen : (hg.pins e).length ≤ 1 := by
        rw [Hypergraph.edgeSize] at hsz
        omega
      have hpin : hg.pins e = [u] := by
        rcases hval : hg.pins e with - | ⟨a, - | ⟨b, l⟩⟩
        · rw [hval] at hu; cases hu
        · rw [hval] at hu
          simp only [List.mem_singleton] at hu
          rw [hu]
        · rw [hval] at hlen
          simp at hlen
      have hnoop : ratePins ctx hg u wu pu (edgeScore hg e) t [u] = t := by
        simp [ratePins, pinAdmissible]
      simp only [rateEdges]
      rw [hpin, hnoop]
      exact ih _ fun e' he' => hmem e' (List.mem_cons_of_mem _ he')

lemma rate_withoutSmallEdges (P : Policies) (ctx : Context) (comm : Nat → Int)
    (hg : Hypergraph) (matched : Nat → Bool) (u : Nat) :
    rate P ctx comm hg matched u = rate P ctx comm (withoutSmallEdges hg) matched u := by
  have htmp : tmpRatingsFor ctx (withoutSmallEdges hg) [] u = tmpRatingsFor ctx hg [] u := by
    show rateEdges ctx (withoutSmallEdges hg) u ((withoutSmallEdges hg).nodeWeight u)
      ((withoutSmallEdges hg).partID u) [] ((withoutSmallEdges hg).incidentEdges u) =
      rateEdges ctx hg u (hg.nodeWeight u) (hg.partID u) [] (hg.incidentEdges u)
    rw [rateEdges_withoutSmall, incidentEdges_withoutSmall]
    exact rateEdges_filter_degenerate ctx hg u _ _ (hg.incidentEdges u) []
      fun e he => of_decide_eq_true (List.mem_filter.1 he).2
  have hbest : scanBest P ctx comm (withoutSmallEdges hg) matched [] u =
      scanBest P ctx comm hg matched [] u := by
    show scanRatings P (withoutSmallEdges hg) comm matched u
        ((withoutSmallEdges hg).nodeWeight u) (ratingMin, kInvalidTarget)
        (tmpRatingsFor ctx (withoutSmallEdges hg) [] u).reverse =
      scanRatings P hg comm matched u (hg.nodeWeight u) (ratingMin, kInvalidTarget)
        (tmpRatingsFor ctx hg [] u).reverse
    rw [scanRatings_withoutSmall, htmp]
    have hwt : (withoutSmallEdges hg).nodeWeight = hg.nodeWeight := rfl
    rw [hwt]
  simp only [rate, rateResult, hbest]

/-- Counterexample for C6: on a hypergraph with a single-pin hyperedge
incident to vertex 0, `rate(0)` does not skip the degenerate edge but
hits the `ASSERT(edgeSize(he) > 1)` and aborts, contradicting the
claimed totality. -/
theorem rate_degenerate_edge_aborts :
    (rateChecked P0 ctxA commA raterC 0).isSome = false := by decide

/-- C6 (amended): `rate(u)` does not skip degenerate incident
hyperedges but asserts their absence — the checked call aborts exactly
when some edge incident to `u` has size ≤ 1.  Such edges nonetheless
contribute no score to any candidate, `u` being their only pin, so the
rating computed (with assertions disabled) is the same as on the
hypergraph with all degenerate edges removed. -/
theorem rate_degenerate_edges_props (P : Policies) (ctx : Context) (comm : Nat → Int)
    (s : RaterState) (u : Nat) :
    ((rateChecked P ctx comm s u = none) ↔
      ∃ e ∈ s.hg.incidentEdges u, s.hg.edgeSize e ≤ 1) ∧
    rate P ctx comm s.hg s.alreadyMatched u =
      rate P ctx comm (withoutSmallEdges s.hg) s.alreadyMatched u := by
  refine ⟨?_, rate_withoutSmallEdges P ctx comm s.hg s.alreadyMatched u⟩
  rw [rateChecked]
  by_cases h : (s.hg.incidentEdges u).all (fun e => decide (1 < s.hg.edgeSize e)) = true
  · rw [if_pos h]
    simp only [List.all_eq_true] at h
    constructor
    · intro hh; cases hh
    · rintro ⟨e, he, hsz⟩
      have := of_decide_eq_true (h e he)
      omega
  · rw [if_neg h]
    simp only [List.all_eq_true] at h
    push_neg at h
    constructor
    · intro _
      obtain ⟨e, he, hd⟩ := h
      refine ⟨e, he, ?_⟩
      have : ¬ 1 < s.hg.edgeSize e := by simpa using hd
      omega
    · intro _
      rfl

end KahyparML
